import Mathlib

/-!
Shallow embedding of the Ising-model Monte Carlo simulator (`src/main.rs`).

Modelling conventions:
* `f64` values are modelled as real numbers (`ℝ`); the temperature grid,
  whose construction casts `f64` to machine integers, is modelled over `ℚ`,
  where every cast performed by the program on its actual inputs
  (`1.0 * 100.0`, `5.0 * 100.0`, `0.05 * 100.0`) truncates to the same
  integer as the `f64` computation does (100, 500 and 5 respectively).
* `i8` spins are modelled as `ℤ`; the `i32` magnetization sum cannot
  overflow for the lattice sizes involved (≤ 70² = 4900), so it is `ℤ` too.
* the thread-local random generator is modelled as an explicit
  `RandomSource`: a stream of booleans consumed by `generate_lattice`
  (one per cell, in order) and a doubly indexed stream of uniform draws in
  `[0,1)` consumed by the sweeps (`unifs t k` is the draw for cell `k`
  during sweep number `t`; each sweep consumes exactly `size²` draws in
  order, so this numbering is a bijective relabelling of the sequential
  draw stream).
* panicking operations (`Vec` indexing, `HashMap` indexing, and
  `Rng::gen_bool`, which panics when its argument is outside `[0,1]`) are
  modelled in the `Option` monad, `none` being a panic.
-/

/-- Spins are stored in a flat row-major vector (`Vec<i8>` in the source). -/
abbrev SpinLattice := List ℤ

/-- Constant `MIN_TEMP: f64 = 1.0`. -/
def MIN_TEMP : ℚ := 1

/-- Constant `MAX_TEMP: f64 = 5.0`. -/
def MAX_TEMP : ℚ := 5

/-- Constant `TEMP_STEP: f64 = 0.05`. -/
def TEMP_STEP : ℚ := 0.05

/-- Constant `INITIAL_STEPS: u32 = 30_000`. -/
def INITIAL_STEPS : ℕ := 30000

/-- Constant `LATER_STEPS: u32 = 200_000`. -/
def LATER_STEPS : ℕ := 200000

/-- Constant `MAGN_CALC_STEP: u32 = 100`. -/
def MAGN_CALC_STEP : ℕ := 100

/-- Constant `MAGN_STEPS: u32 = LATER_STEPS / MAGN_CALC_STEP`. -/
def MAGN_STEPS : ℕ := LATER_STEPS / MAGN_CALC_STEP

/-- Constant `LATTICE_SIZES: [usize; 4] = [6, 15, 40, 70]`. -/
def LATTICE_SIZES : List ℕ := [6, 15, 40, 70]

/-- Explicit model of the program's random source (see the header comment). -/
structure RandomSource where
  coins : ℕ → Bool
  unifs : ℕ → ℕ → ℝ

/-- Source `generate_lattice`: `size*size` spins, cell `k` getting `1` when
the `k`-th boolean draw is `true` and `-1` otherwise. -/
def generate_lattice (size : ℕ) (coins : ℕ → Bool) : SpinLattice :=
  (List.range (size * size)).map (fun k => if coins k then 1 else -1)

/-- Source `get_adjacent_indices`: the four toroidal neighbours of `index`
on a `size × size` grid, in the order `[left, top, right, bottom]`. All
subtractions taken by the source are non-negative in the branch where they
occur, so `ℕ` subtraction agrees with `usize` subtraction. -/
def get_adjacent_indices (index size : ℕ) : List ℕ :=
  let bottom_left := size * size - size
  [if index % size = 0 then index + size - 1 else index - 1,
   if index < size then index + bottom_left else index - size,
   if index % size = size - 1 then index + 1 - size else index + 1,
   if bottom_left ≤ index then index - bottom_left else index + size]

/-- Source `get_trans_map`: the five-entry acceptance-probability table for
temperature `temp`, keyed by the possible energy changes. -/
noncomputable def get_trans_map (temp : ℝ) : List (ℤ × ℝ) :=
  [(-8, min (Real.exp (8 / temp)) 1),
   (-4, min (Real.exp (4 / temp)) 1),
   (0, 1),
   (4, min (Real.exp (-4 / temp)) 1),
   (8, min (Real.exp (-8 / temp)) 1)]

/-- Lookup in the transition table, modelling `HashMap` indexing
(`trans_map[&energy_change]`); `none` is the panic on a missing key. -/
def trans_lookup (m : List (ℤ × ℝ)) (k : ℤ) : Option ℝ :=
  (m.find? (fun q => q.1 == k)).map Prod.snd

/-- Model of `Rng::gen_bool p` fed the uniform draw `u`: panics (`none`)
unless `0 ≤ p ≤ 1`, and otherwise returns `true` with probability `p`,
i.e. exactly when `u < p`. -/
noncomputable def gen_bool (p u : ℝ) : Option Bool :=
  if 0 ≤ p ∧ p ≤ 1 then some (decide (u < p)) else none

/-- Reads the spins at a list of indices (`.map(|i| lattice[*i])`);
`none` models an out-of-bounds panic. -/
def lookup_spins (lattice : SpinLattice) : List ℕ → Option (List ℤ)
  | [] => some []
  | i :: is => do
      let s ← lattice.get? i
      let rest ← lookup_spins lattice is
      pure (s :: rest)

/-- Body of the `recalc_lattice` loop for one cell `index`, given the
uniform draw `u` for that cell: read the spin, read the four neighbours,
compute `energy_change = 2 * spin * Σ neighbours`, look the acceptance
probability up in the table, draw, and flip the spin when accepted. -/
noncomputable def recalc_cell (size : ℕ) (trans_map : List (ℤ × ℝ)) (u : ℝ)
    (lattice : SpinLattice) (index : ℕ) : Option SpinLattice := do
  let spin ← lattice.get? index
  let nbrs ← lookup_spins lattice (get_adjacent_indices index size)
  let p ← trans_lookup trans_map (2 * spin * nbrs.sum)
  let accept ← gen_bool p (u : ℝ)
  pure (if accept then lattice.set index (-spin) else lattice)

/-- Source `recalc_lattice`: one full sweep, visiting the cells
`0, 1, …, size²−1` in order; `us k` is the uniform draw consumed at
cell `k`. -/
noncomputable def recalc_lattice (lattice : SpinLattice) (size : ℕ)
    (trans_map : List (ℤ × ℝ)) (us : ℕ → ℝ) : Option SpinLattice :=
  (List.range (size * size)).foldl
    (fun acc index => acc.bind (fun lat => recalc_cell size trans_map (us index) lat index))
    (some lattice)

/-- Applies `k` consecutive sweeps, the first one being sweep number `t`
(sweep numbers index the random stream `us`). -/
noncomputable def run_sweeps (size : ℕ) (trans_map : List (ℤ × ℝ))
    (us : ℕ → ℕ → ℝ) (t : ℕ) (k : ℕ) (lattice : SpinLattice) : Option SpinLattice :=
  match k with
  | 0 => some lattice
  | k + 1 =>
      (recalc_lattice lattice size trans_map (us t)).bind
        (run_sweeps size trans_map us (t + 1) k)

/-- Source `get_magnetization`: `(Σ spins as f64 / len as f64).abs()`. -/
noncomputable def get_magnetization (lattice : SpinLattice) : ℝ :=
  |((lattice.sum : ℝ) / (lattice.length : ℝ))|

/-- Model of Rust's float-to-integer `as` cast: truncation toward zero
(`Int.div` rounds toward zero). -/
def float_to_int (q : ℚ) : ℤ :=
  Int.tdiv q.num q.den

/-- Source `get_float_range`: multiply the bounds and the step by 100,
truncate to integers, iterate over the half-open integer range, rescale by
`0.01`. `List.range' a n s` is `[a, a+s, …]` of length `n`, so the length
below makes it enumerate exactly the multiples of `s` in `[a, b)`. -/
def get_float_range (start stop step : ℚ) : List ℚ :=
  let a := (float_to_int (start * 100)).toNat
  let b := (float_to_int (stop * 100)).toNat
  let s := (float_to_int (step * 100)).toNat
  (List.range' a ((b - a + s - 1) / s) s).map (fun x : ℕ => (x : ℚ) * 0.01)

/-- Source `get_params`: the Cartesian product of `LATTICE_SIZES` and the
temperature grid, each point carrying its precomputed transition table. -/
noncomputable def get_params : List (ℕ × ℚ × List (ℤ × ℝ)) :=
  let temperatures := get_float_range MIN_TEMP MAX_TEMP TEMP_STEP
  LATTICE_SIZES.flatMap (fun lattice_size =>
    temperatures.map (fun temp => (lattice_size, temp, get_trans_map (temp : ℝ))))

/-- State update of the sampling fold in `iteration`, for sampling sweep
number `i`: apply one sweep, then sample the instantaneous magnetization
(and its square) when `i` is a multiple of `MAGN_CALC_STEP`. -/
noncomputable def sampling_body (lattice_size : ℕ) (trans_map : List (ℤ × ℝ))
    (rs : RandomSource) (acc : Option (SpinLattice × ℝ × ℝ)) (i : ℕ) :
    Option (SpinLattice × ℝ × ℝ) :=
  acc.bind fun s =>
    (recalc_lattice s.1 lattice_size trans_map (rs.unifs (INITIAL_STEPS + i))).map fun lat =>
      if i % MAGN_CALC_STEP = 0 then
        (lat, s.2.1 + get_magnetization lat,
         s.2.2 + get_magnetization lat * get_magnetization lat)
      else (lat, s.2.1, s.2.2)

/-- Source `iteration`: generate a fresh lattice, apply `INITIAL_STEPS`
equilibration sweeps, fold `LATER_STEPS` sampling sweeps accumulating the
magnetization sums, and reduce to `(magnetization, susceptibility)`. -/
noncomputable def iteration (lattice_size : ℕ) (temperature : ℝ)
    (trans_map : List (ℤ × ℝ)) (rs : RandomSource) : Option (ℝ × ℝ) := do
  let lattice := generate_lattice lattice_size rs.coins
  let lattice ← run_sweeps lattice_size trans_map rs.unifs 0 INITIAL_STEPS lattice
  let acc ← (List.range LATER_STEPS).foldl
    (sampling_body lattice_size trans_map rs) (some (lattice, 0, 0))
  let magnetization := acc.2.1 / (MAGN_STEPS : ℝ)
  let susceptibility := ((lattice_size * lattice_size : ℕ) : ℝ) / temperature
    * (acc.2.2 / (MAGN_STEPS : ℝ) - magnetization * magnetization)
  pure (magnetization, susceptibility)

/-- Lattice state after `k` sweeps of a run (counting the equilibration
sweeps and the sampling sweeps uniformly from sweep number 0). -/
noncomputable def lattice_trace (lattice_size : ℕ) (trans_map : List (ℤ × ℝ))
    (rs : RandomSource) (k : ℕ) : Option SpinLattice :=
  run_sweeps lattice_size trans_map rs.unifs 0 k (generate_lattice lattice_size rs.coins)

/-- Value of the `j`-th magnetization sample of a run: the sampling fold
samples at sampling-sweep indices `i ≡ 0 (mod MAGN_CALC_STEP)`, right
after the sweep for index `i = MAGN_CALC_STEP · j` has been applied, i.e.
on the lattice reached after `INITIAL_STEPS + MAGN_CALC_STEP · j + 1`
total sweeps. -/
noncomputable def sample_value (size : ℕ) (T : ℝ) (rs : RandomSource) (j : ℕ) : ℝ :=
  get_magnetization
    ((lattice_trace size (get_trans_map T) rs
      (INITIAL_STEPS + (MAGN_CALC_STEP * j + 1))).getD [])

/-- Source `main`, result-collection part: one record per parameter point,
pairing the point with the outcome of its simulation run; `rss r` is the
private random source of the run at position `r` of the parameter list. -/
noncomputable def main_results (rss : ℕ → RandomSource) :
    List (ℕ × ℚ × Option (ℝ × ℝ)) :=
  get_params.enum.map (fun q =>
    (q.2.1, q.2.2.1, iteration q.2.1 (q.2.2.1 : ℝ) q.2.2.2 (rss q.1)))

/-- The lattice invariant: the stored vector has length `size²` and every
spin is `±1`. -/
def LatInv (size : ℕ) (l : SpinLattice) : Prop :=
  l.length = size * size ∧ ∀ x ∈ l, x = 1 ∨ x = -1

/-! ## The temperature grid -/

/-- The three integer truncations performed by `get_float_range` on the
program's constants. -/
lemma float_to_int_consts :
    float_to_int (MIN_TEMP * 100) = 100 ∧ float_to_int (MAX_TEMP * 100) = 500 ∧
      float_to_int (TEMP_STEP * 100) = 5 := by
  refine ⟨?_, ?_, ?_⟩ <;> norm_num [float_to_int, MIN_TEMP, MAX_TEMP, TEMP_STEP]

/-- The temperature grid, in closed form. -/
lemma get_float_range_consts :
    get_float_range MIN_TEMP MAX_TEMP TEMP_STEP =
      (List.range 80).map (fun k : ℕ => 1 + (k : ℚ) * TEMP_STEP) := by
  obtain ⟨h1, h2, h3⟩ := float_to_int_consts
  have step1 : get_float_range MIN_TEMP MAX_TEMP TEMP_STEP =
      (List.range' 100 80 5).map (fun x : ℕ => (x : ℚ) * 0.01) := by
    simp only [get_float_range, h1, h2, h3]
    rfl
  rw [step1]
  apply List.ext_getElem
  · simp
  · intro i h1 h2
    simp only [List.getElem_map, List.getElem_range', List.getElem_range, TEMP_STEP]
    push_cast
    ring_nf

/-- Claim C2, counterexample part: the temperature grid produced by
`get_float_range` on the program's constants has 80 values, not 39. -/
theorem get_float_range_length_ne_39 :
    (get_float_range MIN_TEMP MAX_TEMP TEMP_STEP).length = 80 ∧
    (get_float_range MIN_TEMP MAX_TEMP TEMP_STEP).length ≠ 39 := by
  rw [get_float_range_consts]
  constructor <;> simp

/-- Claim C2 (amended): the temperature grid enumerated by the parameter
sweep is exactly `{1.00, 1.05, …, 4.95}` — the 80 values
`1 + k·0.05` for `k < 80` — and no others. -/
theorem get_float_range_eq_grid :
    get_float_range MIN_TEMP MAX_TEMP TEMP_STEP =
      (List.range 80).map (fun k : ℕ => 1 + (k : ℚ) * TEMP_STEP) ∧
    (get_float_range MIN_TEMP MAX_TEMP TEMP_STEP).length = 80 := by
  refine ⟨get_float_range_consts, ?_⟩
  rw [get_float_range_consts]
  simp

/-! ## The toroidal neighbour map -/

/-- Row-major encoding stays inside the grid. -/
lemma enc_lt {n q c : ℕ} (hq : q < n) (hc : c < n) : n * q + c < n * n := by
  have h1 : n * (q + 1) ≤ n * n := Nat.mul_le_mul_left n (by omega)
  have h2 : n * (q + 1) = n * q + n := by ring
  omega

/-- Row-major encoding is injective on (row, column) pairs. -/
lemma enc_inj {n q1 c1 q2 c2 : ℕ} (h1 : c1 < n) (h2 : c2 < n)
    (h : n * q1 + c1 = n * q2 + c2) : q1 = q2 ∧ c1 = c2 := by
  have hn : 0 < n := by omega
  have e1 : (n * q1 + c1) / n = q1 := by
    rw [Nat.mul_add_div hn, Nat.div_eq_of_lt h1, Nat.add_zero]
  have e2 : (n * q2 + c2) / n = q2 := by
    rw [Nat.mul_add_div hn, Nat.div_eq_of_lt h2, Nat.add_zero]
  have m1 : (n * q1 + c1) % n = c1 := by
    rw [Nat.mul_add_mod, Nat.mod_eq_of_lt h1]
  have m2 : (n * q2 + c2) % n = c2 := by
    rw [Nat.mul_add_mod, Nat.mod_eq_of_lt h2]
  exact ⟨by rw [← e1, h, e2], by rw [← m1, h, m2]⟩

/-- Stepping one unit down (cyclically) in a coordinate. -/
lemma mod_step_down {n c : ℕ} (hc : c < n) :
    (c + (n - 1)) % n = if c = 0 then n - 1 else c - 1 := by
  rcases eq_or_ne c 0 with h | h
  · subst h
    rw [if_pos rfl, Nat.zero_add, Nat.mod_eq_of_lt (by omega)]
  · have e : c + (n - 1) = n + (c - 1) := by omega
    rw [if_neg h, e, Nat.add_mod_left, Nat.mod_eq_of_lt (by omega)]

/-- Stepping one unit up (cyclically) in a coordinate. -/
lemma mod_step_up {n c : ℕ} (hc : c < n) :
    (c + 1) % n = if c = n - 1 then 0 else c + 1 := by
  rcases eq_or_ne c (n - 1) with h | h
  · rw [if_pos h, h, show n - 1 + 1 = n by omega, Nat.mod_self]
  · rw [if_neg h, Nat.mod_eq_of_lt (by omega)]

/-- Characterization of `get_adjacent_indices` at the cell with row `q`
and column `c`: the four neighbours, in order, are left (column one down,
cyclically), top (row one down), right (column one up), bottom (row one
up). -/
lemma adj_char {n q c : ℕ} (hq : q < n) (hc : c < n) :
    get_adjacent_indices (n * q + c) n =
      [n * q + (c + (n - 1)) % n,
       n * ((q + (n - 1)) % n) + c,
       n * q + (c + 1) % n,
       n * ((q + 1) % n) + c] := by
  have hn : 0 < n := by omega
  have hmod : (n * q + c) % n = c := by
    rw [Nat.mul_add_mod, Nat.mod_eq_of_lt hc]
  have hnn : n * (n - 1) + n = n * n := by
    have : n * (n - 1) + n = n * ((n - 1) + 1) := by ring
    rw [this, show n - 1 + 1 = n by omega]
  simp only [get_adjacent_indices, hmod, List.cons.injEq, and_true]
  refine ⟨?_, ?_, ?_, ?_⟩
  · rw [mod_step_down hc]
    split_ifs with h <;> omega
  · rw [mod_step_down hq]
    by_cases h : q = 0
    · subst h
      rw [if_pos (by simpa using hc), if_pos rfl]
      omega
    · have hle : n * 1 ≤ n * q := Nat.mul_le_mul_left n (by omega)
      rw [if_neg (by omega), if_neg h]
      have e : n * (q - 1) + n = n * q := by
        have : n * (q - 1) + n = n * ((q - 1) + 1) := by ring
        rw [this, show q - 1 + 1 = q by omega]
      omega
  · rw [mod_step_up hc]
    split_ifs with h <;> omega
  · rw [mod_step_up hq]
    by_cases h : q = n - 1
    · subst h
      rw [if_pos (by omega), if_pos rfl]
      omega
    · have hle : n * (q + 1) ≤ n * (n - 1) := Nat.mul_le_mul_left n (by omega)
      have e : n * (q + 1) = n * q + n := by ring
      rw [if_neg (by omega), if_neg h]
      omega

/-- All four neighbour indices stay inside the grid. -/
lemma adj_mem_lt {n i : ℕ} (hn : 0 < n) (hi : i < n * n) :
    ∀ j ∈ get_adjacent_indices i n, j < n * n := by
  have hq : i / n < n := (Nat.div_lt_iff_lt_mul hn).2 hi
  have hc : i % n < n := Nat.mod_lt _ hn
  have hi' : n * (i / n) + i % n = i := Nat.div_add_mod i n
  rw [← hi', adj_char hq hc]
  intro j hj
  simp only [List.mem_cons, List.not_mem_nil, or_false] at hj
  rcases hj with h | h | h | h <;> subst h
  · exact enc_lt hq (Nat.mod_lt _ hn)
  · exact enc_lt (Nat.mod_lt _ hn) hc
  · exact enc_lt hq (Nat.mod_lt _ hn)
  · exact enc_lt (Nat.mod_lt _ hn) hc

/-- Claim C3, counterexample part: on the 2×2 grid the four neighbours of
cell 0 are `[1, 2, 1, 2]` — the left and right neighbours coincide, as do
the top and bottom ones, so they are not 4 distinct indices. -/
theorem get_adjacent_indices_not_distinct_at_2 :
    get_adjacent_indices 0 2 = [1, 2, 1, 2] ∧
    ¬ (get_adjacent_indices 0 2).Nodup := by
  constructor <;> decide

/-- Claim C3 (amended): for every positive grid side `n` and every cell
`i < n²`, `get_adjacent_indices` returns exactly 4 indices, each in
`[0, n²)`; they are pairwise distinct whenever `n ≥ 3` (in particular for
every lattice size the program uses); and the mapping is its own
structural inverse under the opposite direction: the left neighbour
(entry 0) of the right neighbour (entry 2) of `i` is `i`, and the top
neighbour (entry 1) of the bottom neighbour (entry 3) of `i` is `i`. -/
theorem get_adjacent_indices_spec (n i : ℕ) (hn : 0 < n) (hi : i < n * n) :
    (get_adjacent_indices i n).length = 4 ∧
    (∀ j ∈ get_adjacent_indices i n, j < n * n) ∧
    (3 ≤ n → (get_adjacent_indices i n).Nodup) ∧
    (get_adjacent_indices ((get_adjacent_indices i n).getD 2 0) n).getD 0 0 = i ∧
    (get_adjacent_indices ((get_adjacent_indices i n).getD 3 0) n).getD 1 0 = i := by
  have hmem : ∀ j ∈ get_adjacent_indices i n, j < n * n := adj_mem_lt hn hi
  obtain ⟨q, c, hq, hc, rfl⟩ : ∃ q c, q < n ∧ c < n ∧ n * q + c = i :=
    ⟨i / n, i % n, (Nat.div_lt_iff_lt_mul hn).2 hi, Nat.mod_lt _ hn, Nat.div_add_mod i n⟩
  have hmc1 : (c + (n - 1)) % n < n := Nat.mod_lt _ hn
  have hmc2 : (c + 1) % n < n := Nat.mod_lt _ hn
  have hmq1 : (q + (n - 1)) % n < n := Nat.mod_lt _ hn
  have hmq2 : (q + 1) % n < n := Nat.mod_lt _ hn
  refine ⟨rfl, hmem, ?_, ?_, ?_⟩
  · intro hn3
    rw [adj_char hq hc]
    have d12 : n * q + (c + (n - 1)) % n ≠ n * ((q + (n - 1)) % n) + c := by
      intro h
      obtain ⟨h1, h2⟩ := enc_inj hmc1 hc h
      rw [mod_step_down hc] at h2
      split_ifs at h2 <;> omega
    have d13 : n * q + (c + (n - 1)) % n ≠ n * q + (c + 1) % n := by
      intro h
      obtain ⟨h1, h2⟩ := enc_inj hmc1 hmc2 h
      rw [mod_step_down hc, mod_step_up hc] at h2
      split_ifs at h2 <;> omega
    have d14 : n * q + (c + (n - 1)) % n ≠ n * ((q + 1) % n) + c := by
      intro h
      obtain ⟨h1, h2⟩ := enc_inj hmc1 hc h
      rw [mod_step_down hc] at h2
      split_ifs at h2 <;> omega
    have d23 : n * ((q + (n - 1)) % n) + c ≠ n * q + (c + 1) % n := by
      intro h
      obtain ⟨h1, h2⟩ := enc_inj hc hmc2 h
      rw [mod_step_up hc] at h2
      split_ifs at h2 <;> omega
    have d24 : n * ((q + (n - 1)) % n) + c ≠ n * ((q + 1) % n) + c := by
      intro h
      obtain ⟨h1, h2⟩ := enc_inj hc hc h
      rw [mod_step_down hq, mod_step_up hq] at h1
      split_ifs at h1 <;> omega
    have d34 : n * q + (c + 1) % n ≠ n * ((q + 1) % n) + c := by
      intro h
      obtain ⟨h1, h2⟩ := enc_inj hmc2 hc h
      rw [mod_step_up hc] at h2
      split_ifs at h2 <;> omega
    simp [List.nodup_cons, d12, d13, d14, d23, d24, d34]
  · rw [adj_char hq hc]
    simp only [List.getD, List.get?_cons_succ, List.get?_cons_zero, Option.getD_some]
    rw [adj_char hq hmc2]
    simp only [List.getD, List.get?_cons_zero, Option.getD_some]
    rw [Nat.mod_add_mod, show c + 1 + (n - 1) = c + n by omega,
      Nat.add_mod_right, Nat.mod_eq_of_lt hc]
  · rw [adj_char hq hc]
    simp only [List.getD, List.get?_cons_succ, List.get?_cons_zero, Option.getD_some]
    rw [adj_char hmq2 hc]
    simp only [List.getD, List.get?_cons_succ, List.get?_cons_zero, Option.getD_some]
    rw [Nat.mod_add_mod, show q + 1 + (n - 1) = q + n by omega,
      Nat.add_mod_right, Nat.mod_eq_of_lt hq]

/-- Witness for `get_adjacent_indices_spec` at `n = 3`, `i = 4`. -/
theorem get_adjacent_indices_spec_witness :
    0 < 3 ∧ 4 < 3 * 3 ∧
    ((get_adjacent_indices 4 3).length = 4 ∧
     (∀ j ∈ get_adjacent_indices 4 3, j < 3 * 3) ∧
     (3 ≤ 3 → (get_adjacent_indices 4 3).Nodup) ∧
     (get_adjacent_indices ((get_adjacent_indices 4 3).getD 2 0) 3).getD 0 0 = 4 ∧
     (get_adjacent_indices ((get_adjacent_indices 4 3).getD 3 0) 3).getD 1 0 = 4) :=
  ⟨by decide, by decide, get_adjacent_indices_spec 3 4 (by decide) (by decide)⟩

/-! ## The transition table -/

/-- Closed form of a transition-table lookup at an arbitrary key. -/
lemma trans_lookup_eq (T : ℝ) (k : ℤ) :
    trans_lookup (get_trans_map T) k =
      if k = -8 then some (min (Real.exp (8 / T)) 1)
      else if k = -4 then some (min (Real.exp (4 / T)) 1)
      else if k = 0 then some 1
      else if k = 4 then some (min (Real.exp (-4 / T)) 1)
      else if k = 8 then some (min (Real.exp (-8 / T)) 1)
      else none := by
  by_cases h1 : k = -8
  · subst h1; rfl
  rw [if_neg h1]
  by_cases h2 : k = -4
  · subst h2; rfl
  rw [if_neg h2]
  by_cases h3 : k = 0
  · subst h3; rfl
  rw [if_neg h3]
  by_cases h4 : k = 4
  · subst h4; rfl
  rw [if_neg h4]
  by_cases h5 : k = 8
  · subst h5; rfl
  rw [if_neg h5]
  rw [trans_lookup, Option.map_eq_none', List.find?_eq_none]
  intro x hx
  simp only [get_trans_map, List.mem_cons, List.not_mem_nil, or_false] at hx
  rcases hx with h | h | h | h | h <;> subst h <;>
    simp only [beq_iff_eq] <;> omega

/-- Every probability the transition table stores lies in `[0, 1]`
(whatever the temperature: the stored values are clipped at 1 and the
exponential is positive). -/
lemma trans_lookup_bounds {T : ℝ} {k : ℤ} {p : ℝ}
    (h : trans_lookup (get_trans_map T) k = some p) : 0 ≤ p ∧ p ≤ 1 := by
  rw [trans_lookup_eq] at h
  split_ifs at h <;> simp only [Option.some.injEq] at h <;> rw [← h] <;>
    first
      | exact ⟨le_min (Real.exp_pos _).le zero_le_one, min_le_right _ _⟩
      | exact ⟨zero_le_one, le_refl 1⟩

/-- Claim C4: the transition table built by `get_trans_map T` has exactly
the keys `{−8, −4, 0, 4, 8}`, maps every key `ΔE` to
`min(1, exp(−ΔE/T))`, maps `0` to exactly `1`, stores only values in
`[0, 1]`, and its values are monotonically non-increasing in the key. -/
theorem get_trans_map_spec (T : ℝ) (hT : 0 < T) :
    (∀ k : ℤ, (trans_lookup (get_trans_map T) k).isSome ↔
      k ∈ ([-8, -4, 0, 4, 8] : List ℤ)) ∧
    (∀ k ∈ ([-8, -4, 0, 4, 8] : List ℤ),
      trans_lookup (get_trans_map T) k = some (min 1 (Real.exp (-(k : ℝ) / T)))) ∧
    trans_lookup (get_trans_map T) 0 = some 1 ∧
    (∀ k p, trans_lookup (get_trans_map T) k = some p → 0 ≤ p ∧ p ≤ 1) ∧
    (∀ k1 k2 p1 p2, trans_lookup (get_trans_map T) k1 = some p1 →
      trans_lookup (get_trans_map T) k2 = some p2 → k1 ≤ k2 → p2 ≤ p1) := by
  have hkeys : ∀ k : ℤ, (trans_lookup (get_trans_map T) k).isSome ↔
      k ∈ ([-8, -4, 0, 4, 8] : List ℤ) := by
    intro k
    rw [trans_lookup_eq]
    split_ifs with a b c d e <;> simp_all
  have hformula : ∀ k ∈ ([-8, -4, 0, 4, 8] : List ℤ),
      trans_lookup (get_trans_map T) k = some (min 1 (Real.exp (-(k : ℝ) / T))) := by
    intro k hk
    fin_cases hk <;> rw [trans_lookup_eq] <;> norm_num [min_comm, Real.exp_zero]
  refine ⟨hkeys, hformula, ?_, fun k p h => trans_lookup_bounds h, ?_⟩
  · have := hformula 0 (by simp)
    simpa [Real.exp_zero] using this
  · intro k1 k2 p1 p2 h1 h2 h12
    have hk1 : k1 ∈ ([-8, -4, 0, 4, 8] : List ℤ) := (hkeys k1).1 (by rw [h1]; rfl)
    have hk2 : k2 ∈ ([-8, -4, 0, 4, 8] : List ℤ) := (hkeys k2).1 (by rw [h2]; rfl)
    have e1 := hformula k1 hk1
    have e2 := hformula k2 hk2
    rw [h1, Option.some.injEq] at e1
    rw [h2, Option.some.injEq] at e2
    rw [e1, e2]
    refine min_le_min (le_refl 1) (Real.exp_le_exp.2 ?_)
    have : (k1 : ℝ) ≤ (k2 : ℝ) := Int.cast_le.2 h12
    exact div_le_div_of_nonneg_right (neg_le_neg this) hT.le

/-- Witness for `get_trans_map_spec` at `T = 1`. -/
theorem get_trans_map_spec_witness :
    (0 : ℝ) < 1 ∧
    ((∀ k : ℤ, (trans_lookup (get_trans_map 1) k).isSome ↔
      k ∈ ([-8, -4, 0, 4, 8] : List ℤ)) ∧
    (∀ k ∈ ([-8, -4, 0, 4, 8] : List ℤ),
      trans_lookup (get_trans_map 1) k = some (min 1 (Real.exp (-(k : ℝ) / 1)))) ∧
    trans_lookup (get_trans_map 1) 0 = some 1 ∧
    (∀ k p, trans_lookup (get_trans_map 1) k = some p → 0 ≤ p ∧ p ≤ 1) ∧
    (∀ k1 k2 p1 p2, trans_lookup (get_trans_map 1) k1 = some p1 →
      trans_lookup (get_trans_map 1) k2 = some p2 → k1 ≤ k2 → p2 ≤ p1)) :=
  ⟨one_pos, get_trans_map_spec 1 one_pos⟩

/-! ## The magnetization estimator -/

/-- A list of `±1` spins has `|sum| ≤ length`. -/
lemma abs_sum_le_length {l : List ℤ} (h : ∀ x ∈ l, x = 1 ∨ x = -1) :
    |l.sum| ≤ (l.length : ℤ) := by
  induction l with
  | nil => simp
  | cons a l ih =>
    have ha : |a| = 1 := by
      rcases h a (by simp) with rfl | rfl <;> simp
    have hl := ih (fun x hx => h x (List.mem_cons_of_mem _ hx))
    have habs : |a + l.sum| ≤ |a| + |l.sum| := abs_add _ _
    simp only [List.sum_cons, List.length_cons]
    push_cast
    linarith

/-- A list of `±1` spins sums to the signed difference of its counts. -/
lemma sum_eq_count_sub {l : List ℤ} (h : ∀ x ∈ l, x = 1 ∨ x = -1) :
    l.sum = (l.count 1 : ℤ) - (l.count (-1) : ℤ) := by
  induction l with
  | nil => simp
  | cons a l ih =>
    have hl := ih (fun x hx => h x (List.mem_cons_of_mem _ hx))
    rcases h a (by simp) with rfl | rfl
    · rw [List.sum_cons, List.count_cons_self, List.count_cons_of_ne (by decide)]
      push_cast
      omega
    · rw [List.sum_cons, List.count_cons_self, List.count_cons_of_ne (by decide)]
      push_cast
      omega

/-- Claim C7: `get_magnetization` returns `|Σ spins| / N`; on a `±1`
lattice the result is in `[0, 1]`; it is exactly 1 on a nonempty
all-aligned lattice and exactly 0 when the counts of `+1` and `−1`
coincide. -/
theorem get_magnetization_spec (lattice : SpinLattice)
    (hpm : ∀ x ∈ lattice, x = 1 ∨ x = -1) :
    get_magnetization lattice = |(lattice.sum : ℝ)| / (lattice.length : ℝ) ∧
    0 ≤ get_magnetization lattice ∧ get_magnetization lattice ≤ 1 ∧
    (lattice ≠ [] → ((∀ x ∈ lattice, x = 1) ∨ (∀ x ∈ lattice, x = -1)) →
      get_magnetization lattice = 1) ∧
    (lattice.count 1 = lattice.count (-1) → get_magnetization lattice = 0) := by
  have hform : get_magnetization lattice = |(lattice.sum : ℝ)| / (lattice.length : ℝ) := by
    rw [get_magnetization, abs_div, Nat.abs_cast]
  refine ⟨hform, abs_nonneg _, ?_, ?_, ?_⟩
  · rcases eq_or_ne lattice [] with rfl | hne
    · simp [get_magnetization]
    · have hlen : 0 < (lattice.length : ℝ) := by
        have : 0 < lattice.length := List.length_pos.2 hne
        exact_mod_cast this
      rw [hform, div_le_one hlen]
      have := abs_sum_le_length hpm
      calc |(lattice.sum : ℝ)| = |((lattice.sum : ℤ) : ℝ)| := by norm_num
        _ ≤ (lattice.length : ℝ) := by exact_mod_cast this
  · intro hne hall
    have hlen : 0 < lattice.length := List.length_pos.2 hne
    have hlenR : (lattice.length : ℝ) ≠ 0 := by
      have : (0 : ℝ) < lattice.length := by exact_mod_cast hlen
      linarith
    rcases hall with hall | hall
    · have hsum : lattice.sum = (lattice.length : ℤ) := by
        have : lattice = List.replicate lattice.length 1 := List.eq_replicate_iff.2 ⟨rfl, hall⟩
        rw [this]
        simp [List.sum_replicate]
      rw [hform, hsum]
      rw [abs_of_nonneg (by positivity)]
      push_cast
      field_simp
    · have hsum : lattice.sum = -(lattice.length : ℤ) := by
        have : lattice = List.replicate lattice.length (-1) := List.eq_replicate_iff.2 ⟨rfl, hall⟩
        rw [this]
        simp [List.sum_replicate]
      rw [hform, hsum]
      push_cast
      rw [abs_neg, abs_of_nonneg (by positivity)]
      field_simp
  · intro hcount
    have hsum : lattice.sum = 0 := by
      rw [sum_eq_count_sub hpm, hcount]
      omega
    rw [hform, hsum]
    simp

/-- Witness for `get_magnetization_spec` on the one-spin lattice `[1]`. -/
theorem get_magnetization_spec_witness :
    (∀ x ∈ ([1] : SpinLattice), x = 1 ∨ x = -1) ∧
    (get_magnetization [1] = |((([1] : SpinLattice).sum : ℤ) : ℝ)| / ((([1] : SpinLattice).length : ℕ) : ℝ) ∧
    0 ≤ get_magnetization [1] ∧ get_magnetization [1] ≤ 1 ∧
    (([1] : SpinLattice) ≠ [] → ((∀ x ∈ ([1] : SpinLattice), x = 1) ∨ (∀ x ∈ ([1] : SpinLattice), x = -1)) →
      get_magnetization [1] = 1) ∧
    (([1] : SpinLattice).count 1 = ([1] : SpinLattice).count (-1) → get_magnetization [1] = 0)) :=
  ⟨by decide, get_magnetization_spec [1] (by decide)⟩

/-! ## Determinism -/

/-- Claim C9: a simulation run is a deterministic function of its inputs
and its random source — two runs fed identical random sources return the
same `(magnetization, susceptibility)` pair and pass through the same
sequence of intermediate lattice states. -/
theorem iteration_deterministic (lattice_size : ℕ) (temperature : ℝ)
    (trans_map : List (ℤ × ℝ)) (rs1 rs2 : RandomSource) (h : rs1 = rs2) :
    iteration lattice_size temperature trans_map rs1 =
      iteration lattice_size temperature trans_map rs2 ∧
    ∀ k, lattice_trace lattice_size trans_map rs1 k =
      lattice_trace lattice_size trans_map rs2 k := by
  subst h
  exact ⟨rfl, fun _ => rfl⟩

/-- Witness for `iteration_deterministic` on a concrete random source. -/
theorem iteration_deterministic_witness :
    (⟨fun _ => true, fun _ _ => 0⟩ : RandomSource) = ⟨fun _ => true, fun _ _ => 0⟩ ∧
    (iteration 6 1 [] ⟨fun _ => true, fun _ _ => 0⟩ =
      iteration 6 1 [] ⟨fun _ => true, fun _ _ => 0⟩ ∧
    ∀ k, lattice_trace 6 [] ⟨fun _ => true, fun _ _ => 0⟩ k =
      lattice_trace 6 [] ⟨fun _ => true, fun _ _ => 0⟩ k) :=
  ⟨rfl, iteration_deterministic 6 1 [] ⟨fun _ => true, fun _ _ => 0⟩
    ⟨fun _ => true, fun _ _ => 0⟩ rfl⟩

/-! ## The lattice invariant -/

/-- `generate_lattice` establishes the invariant. -/
lemma generate_lattice_inv (size : ℕ) (coins : ℕ → Bool) :
    LatInv size (generate_lattice size coins) := by
  constructor
  · simp [generate_lattice]
  · intro x hx
    simp only [generate_lattice, List.mem_map, List.mem_range] at hx
    obtain ⟨k, _, hk⟩ := hx
    split_ifs at hk
    · exact Or.inl hk.symm
    · exact Or.inr hk.symm

/-- Reading the spins at in-range indices succeeds, and yields as many
values as indices, all of them entries of the lattice. -/
lemma lookup_spins_some {lat : SpinLattice} {idxs : List ℕ}
    (h : ∀ i ∈ idxs, i < lat.length) :
    ∃ vs, lookup_spins lat idxs = some vs ∧ vs.length = idxs.length ∧
      ∀ v ∈ vs, v ∈ lat := by
  induction idxs with
  | nil => exact ⟨[], rfl, rfl, by simp⟩
  | cons i is ih =>
    obtain ⟨v, hv⟩ : ∃ v, lat.get? i = some v :=
      ⟨lat.get ⟨i, h i (by simp)⟩, List.get?_eq_get (h i (by simp))⟩
    obtain ⟨vs, hvs, hlen, hmem⟩ := ih (fun j hj => h j (List.mem_cons_of_mem _ hj))
    refine ⟨v :: vs, ?_, by simp [hlen], ?_⟩
    · rw [lookup_spins, hv, hvs]
      rfl
    · intro x hx
      rcases List.mem_cons.1 hx with rfl | hx
      · exact List.get?_mem hv
      · exact hmem x hx

/-- Whenever a spin read succeeds it yields as many values as indices,
all of them entries of the lattice. -/
lemma lookup_spins_sound {lat : SpinLattice} :
    ∀ {idxs : List ℕ} {nbrs : List ℤ}, lookup_spins lat idxs = some nbrs →
      nbrs.length = idxs.length ∧ ∀ v ∈ nbrs, v ∈ lat := by
  intro idxs
  induction idxs with
  | nil =>
    intro nbrs h
    rw [lookup_spins] at h
    cases h
    exact ⟨rfl, by simp⟩
  | cons i is ih =>
    intro nbrs h
    rw [lookup_spins] at h
    cases hg : lat.get? i with
    | none => rw [hg] at h; cases h
    | some v =>
      rw [hg] at h
      cases hr : lookup_spins lat is with
      | none => rw [hr] at h; cases h
      | some vs =>
        rw [hr] at h
        cases h
        obtain ⟨hlen, hmem⟩ := ih hr
        refine ⟨by simp [hlen], ?_⟩
        intro x hx
        rcases List.mem_cons.1 hx with rfl | hx
        · exact List.get?_mem hg
        · exact hmem x hx

/-- The energy change of flipping a `±1` spin with four `±1` neighbours is
one of the five table keys. -/
lemma energy_change_mem {spin : ℤ} (hspin : spin = 1 ∨ spin = -1) {nbrs : List ℤ}
    (hlen : nbrs.length = 4) (hmem : ∀ v ∈ nbrs, v = 1 ∨ v = -1) :
    2 * spin * nbrs.sum ∈ ([-8, -4, 0, 4, 8] : List ℤ) := by
  obtain ⟨a, b, c, d, rfl⟩ : ∃ a b c d, nbrs = [a, b, c, d] := by
    match nbrs, hlen with
    | [a, b, c, d], _ => exact ⟨a, b, c, d, rfl⟩
  have ha := hmem a (by simp)
  have hb := hmem b (by simp)
  have hc := hmem c (by simp)
  have hd := hmem d (by simp)
  rcases hspin with rfl | rfl <;> rcases ha with rfl | rfl <;>
    rcases hb with rfl | rfl <;> rcases hc with rfl | rfl <;>
    rcases hd with rfl | rfl <;> decide

/-- A key that is one of the five energy changes is present in the table. -/
lemma trans_lookup_isSome_of_mem {T : ℝ} {k : ℤ}
    (h : k ∈ ([-8, -4, 0, 4, 8] : List ℤ)) :
    (trans_lookup (get_trans_map T) k).isSome := by
  rw [trans_lookup_eq]
  fin_cases h <;> simp

/-- On an invariant lattice, updating one in-range cell never panics, and
the result still satisfies the invariant. -/
lemma recalc_cell_some {size : ℕ} {T : ℝ} {lat : SpinLattice} {index : ℕ} (u : ℝ)
    (hinv : LatInv size lat) (hidx : index < size * size) (hsize : 0 < size) :
    ∃ lat2, recalc_cell size (get_trans_map T) u lat index = some lat2 ∧
      LatInv size lat2 := by
  obtain ⟨hlen, hpm⟩ := hinv
  have hidx2 : index < lat.length := by rw [hlen]; exact hidx
  obtain ⟨spin, hspin⟩ : ∃ s, lat.get? index = some s :=
    ⟨lat.get ⟨index, hidx2⟩, List.get?_eq_get hidx2⟩
  have hspin_pm := hpm spin (List.get?_mem hspin)
  have hadj : ∀ i ∈ get_adjacent_indices index size, i < lat.length := by
    rw [hlen]
    exact adj_mem_lt hsize hidx
  obtain ⟨nbrs, hnbrs, hnlen, hnmem⟩ := lookup_spins_some hadj
  have hn4 : nbrs.length = 4 := by rw [hnlen]; rfl
  have hnpm : ∀ v ∈ nbrs, v = 1 ∨ v = -1 := fun v hv => hpm v (hnmem v hv)
  have hE := energy_change_mem hspin_pm hn4 hnpm
  obtain ⟨p, hp⟩ := Option.isSome_iff_exists.1 (trans_lookup_isSome_of_mem (T := T) hE)
  obtain ⟨hp0, hp1⟩ := trans_lookup_bounds hp
  have hgb : gen_bool p u = some (decide (u < p)) := by
    rw [gen_bool, if_pos ⟨hp0, hp1⟩]
  refine ⟨if decide (u < p) then lat.set index (-spin) else lat, ?_, ?_⟩
  · simp only [recalc_cell, Option.bind_eq_bind, Option.pure_def, hspin,
      Option.some_bind, hnbrs, hp, hgb]
  · split_ifs with hacc
    · constructor
      · rw [List.length_set, hlen]
      · intro x hx
        rcases List.mem_or_eq_of_mem_set hx with hx | rfl
        · exact hpm x hx
        · rcases hspin_pm with rfl | rfl
          · exact Or.inr rfl
          · exact Or.inl (by norm_num)
    · exact ⟨hlen, hpm⟩

/-- Whenever a cell update succeeds, it either flips the addressed spin or
leaves the lattice unchanged; in particular the invariant is preserved. -/
lemma recalc_cell_inv_of_some {size : ℕ} {tm : List (ℤ × ℝ)} {u : ℝ}
    {lat lat2 : SpinLattice} {index : ℕ}
    (h : recalc_cell size tm u lat index = some lat2) (hinv : LatInv size lat) :
    LatInv size lat2 := by
  simp only [recalc_cell, Option.bind_eq_bind, Option.pure_def] at h
  cases hg : lat.get? index with
  | none => simp only [hg, Option.none_bind] at h; exact absurd h (by simp)
  | some spin =>
    simp only [hg, Option.some_bind] at h
    cases hn : lookup_spins lat (get_adjacent_indices index size) with
    | none => simp only [hn, Option.none_bind] at h; exact absurd h (by simp)
    | some nbrs =>
      simp only [hn, Option.some_bind] at h
      cases hp : trans_lookup tm (2 * spin * nbrs.sum) with
      | none => simp only [hp, Option.none_bind] at h; exact absurd h (by simp)
      | some p =>
        simp only [hp, Option.some_bind] at h
        cases hb : gen_bool p u with
        | none => simp only [hb, Option.none_bind] at h; exact absurd h (by simp)
        | some accept =>
          simp only [hb, Option.some_bind] at h
          obtain ⟨hlen, hpm⟩ := hinv
          have hspin_pm := hpm spin (List.get?_mem hg)
          cases h
          split_ifs with hacc
          · constructor
            · rw [List.length_set, hlen]
            · intro x hx
              rcases List.mem_or_eq_of_mem_set hx with hx | rfl
              · exact hpm x hx
              · rcases hspin_pm with rfl | rfl
                · exact Or.inr rfl
                · exact Or.inl (by norm_num)
          · exact ⟨hlen, hpm⟩

/-- A fold of cell updates starting from a panic stays a panic. -/
lemma foldl_bind_none {g : ℕ → SpinLattice → Option SpinLattice} (L : List ℕ) :
    L.foldl (fun acc index => acc.bind (g index)) none = none := by
  induction L with
  | nil => rfl
  | cons i L ih => simpa using ih

/-- On an invariant lattice a full sweep never panics and preserves the
invariant. -/
lemma recalc_lattice_some {size : ℕ} {T : ℝ} (us : ℕ → ℝ) {lat : SpinLattice}
    (hinv : LatInv size lat) (hsize : 0 < size) :
    ∃ lat2, recalc_lattice lat size (get_trans_map T) us = some lat2 ∧
      LatInv size lat2 := by
  rw [recalc_lattice]
  have H : ∀ (L : List ℕ), (∀ i ∈ L, i < size * size) →
      ∀ lat, LatInv size lat →
      ∃ lat2, L.foldl
        (fun acc index => acc.bind (fun l => recalc_cell size (get_trans_map T) (us index) l index))
        (some lat) = some lat2 ∧ LatInv size lat2 := by
    intro L
    induction L with
    | nil => exact fun _ lat hlat => ⟨lat, rfl, hlat⟩
    | cons i L ih =>
      intro hL lat hlat
      obtain ⟨mid, hmid, hmidinv⟩ :=
        recalc_cell_some (T := T) (us i) hlat (hL i (by simp)) hsize
      rw [List.foldl_cons, Option.some_bind, hmid]
      exact ih (fun j hj => hL j (List.mem_cons_of_mem _ hj)) mid hmidinv
  exact H (List.range (size * size)) (by simp) lat hinv

/-- Whenever a full sweep succeeds it preserves the invariant (for an
arbitrary transition table). -/
lemma recalc_lattice_inv_of_some {size : ℕ} {tm : List (ℤ × ℝ)} {us : ℕ → ℝ}
    {lat lat2 : SpinLattice}
    (h : recalc_lattice lat size tm us = some lat2) (hinv : LatInv size lat) :
    LatInv size lat2 := by
  rw [recalc_lattice] at h
  have H : ∀ (L : List ℕ) (lat : SpinLattice), LatInv size lat →
      L.foldl (fun acc index => acc.bind (fun l => recalc_cell size tm (us index) l index))
        (some lat) = some lat2 → LatInv size lat2 := by
    intro L
    induction L with
    | nil =>
      intro lat hlat h
      cases h
      exact hlat
    | cons i L ih =>
      intro lat hlat h
      rw [List.foldl_cons, Option.some_bind] at h
      cases hm : recalc_cell size tm (us i) lat i with
      | none => rw [hm] at h; rw [foldl_bind_none] at h; cases h
      | some mid =>
        rw [hm] at h
        exact ih mid (recalc_cell_inv_of_some hm hlat) h
  exact H _ lat hinv h

/-- Any number of sweeps on an invariant lattice succeeds and preserves
the invariant. -/
lemma run_sweeps_some {size : ℕ} {T : ℝ} (us : ℕ → ℕ → ℝ) (hsize : 0 < size) :
    ∀ (k t : ℕ) {lat : SpinLattice}, LatInv size lat →
    ∃ lat2, run_sweeps size (get_trans_map T) us t k lat = some lat2 ∧
      LatInv size lat2 := by
  intro k
  induction k with
  | zero => exact fun t _ hinv => ⟨_, rfl, hinv⟩
  | succ k ih =>
    intro t lat hinv
    obtain ⟨mid, hmid, hmidinv⟩ := recalc_lattice_some (T := T) (us t) hinv hsize
    obtain ⟨lat2, h2, h2inv⟩ := ih (t + 1) hmidinv
    refine ⟨lat2, ?_, h2inv⟩
    rw [run_sweeps, hmid, Option.some_bind, h2]

/-- Whenever a block of sweeps succeeds it preserves the invariant (for an
arbitrary transition table). -/
lemma run_sweeps_inv_of_some {size : ℕ} {tm : List (ℤ × ℝ)} {us : ℕ → ℕ → ℝ} :
    ∀ {k t : ℕ} {lat lat2 : SpinLattice},
      run_sweeps size tm us t k lat = some lat2 → LatInv size lat →
      LatInv size lat2 := by
  intro k
  induction k with
  | zero =>
    intro t lat lat2 h hinv
    cases h
    exact hinv
  | succ k ih =>
    intro t lat lat2 h hinv
    rw [run_sweeps] at h
    cases hm : recalc_lattice lat size tm (us t) with
    | none => rw [hm, Option.none_bind] at h; exact absurd h (by simp)
    | some mid =>
      rw [hm, Option.some_bind] at h
      exact ih h (recalc_lattice_inv_of_some hm hinv)

/-- Claim C5: `generate_lattice size` returns a lattice of length exactly
`size²` with every element in `{+1, −1}`, one full sweep preserves this
invariant, and so does any number of sweeps applied to a fresh lattice. -/
theorem lattice_invariant_spec (size : ℕ) (coins : ℕ → Bool) :
    LatInv size (generate_lattice size coins) ∧
    (∀ (trans_map : List (ℤ × ℝ)) (us : ℕ → ℝ) (lat lat2 : SpinLattice),
      LatInv size lat → recalc_lattice lat size trans_map us = some lat2 →
      LatInv size lat2) ∧
    (∀ (trans_map : List (ℤ × ℝ)) (us : ℕ → ℕ → ℝ) (t k : ℕ) (lat2 : SpinLattice),
      run_sweeps size trans_map us t k (generate_lattice size coins) = some lat2 →
      LatInv size lat2) :=
  ⟨generate_lattice_inv size coins,
   fun _ _ _ _ hinv h => recalc_lattice_inv_of_some h hinv,
   fun _ _ _ _ _ h => run_sweeps_inv_of_some h (generate_lattice_inv size coins)⟩

/-- Witness for `lattice_invariant_spec` at size 0 with trivial inputs. -/
theorem lattice_invariant_spec_witness :
    LatInv 0 (generate_lattice 0 (fun _ => true)) ∧ LatInv 0 [] ∧ LatInv 0 [] :=
  ⟨(lattice_invariant_spec 0 (fun _ => true)).1,
   (lattice_invariant_spec 0 (fun _ => true)).2.1 [] (fun _ => 0) [] []
     ⟨rfl, by simp⟩ rfl,
   (lattice_invariant_spec 0 (fun _ => true)).2.2 [] (fun _ _ => 0) 0 0 [] rfl⟩

/-- Claim C6: on a `±1` lattice of length `size²`, every per-cell energy
change computed during a sweep is one of `{−8, −4, 0, 4, 8}`, the
transition-table lookup at that key succeeds with a probability in
`[0, 1]`, and consequently the whole sweep never hits a panic branch. -/
theorem recalc_lattice_safety (size : ℕ) (T : ℝ) (us : ℕ → ℝ) (lat : SpinLattice)
    (hsize : 0 < size) (hlen : lat.length = size * size)
    (hpm : ∀ x ∈ lat, x = 1 ∨ x = -1) :
    (∀ (index : ℕ) (spin : ℤ) (nbrs : List ℤ), index < size * size →
      lat.get? index = some spin →
      lookup_spins lat (get_adjacent_indices index size) = some nbrs →
      2 * spin * nbrs.sum ∈ ([-8, -4, 0, 4, 8] : List ℤ) ∧
      ∃ p, trans_lookup (get_trans_map T) (2 * spin * nbrs.sum) = some p ∧
        0 ≤ p ∧ p ≤ 1) ∧
    (recalc_lattice lat size (get_trans_map T) us).isSome := by
  constructor
  · intro index spin nbrs hidx hspin hnbrs
    have hspin_pm := hpm spin (List.get?_mem hspin)
    obtain ⟨hnlen, hnmem⟩ := lookup_spins_sound hnbrs
    have hn4 : nbrs.length = 4 := by rw [hnlen]; rfl
    have hnpm : ∀ v ∈ nbrs, v = 1 ∨ v = -1 := fun v hv => hpm v (hnmem v hv)
    have hE := energy_change_mem hspin_pm hn4 hnpm
    obtain ⟨p, hp⟩ :=
      Option.isSome_iff_exists.1 (trans_lookup_isSome_of_mem (T := T) hE)
    obtain ⟨hp0, hp1⟩ := trans_lookup_bounds hp
    exact ⟨hE, p, hp, hp0, hp1⟩
  · obtain ⟨lat2, h2, _⟩ := recalc_lattice_some (T := T) us ⟨hlen, hpm⟩ hsize
    rw [h2]
    rfl

/-- Witness for `recalc_lattice_safety` on the single-cell lattice `[1]`. -/
theorem recalc_lattice_safety_witness :
    0 < 1 ∧ ([1] : SpinLattice).length = 1 * 1 ∧
    (∀ x ∈ ([1] : SpinLattice), x = 1 ∨ x = -1) ∧
    ((∀ (index : ℕ) (spin : ℤ) (nbrs : List ℤ), index < 1 * 1 →
      ([1] : SpinLattice).get? index = some spin →
      lookup_spins [1] (get_adjacent_indices index 1) = some nbrs →
      2 * spin * nbrs.sum ∈ ([-8, -4, 0, 4, 8] : List ℤ) ∧
      ∃ p, trans_lookup (get_trans_map 1) (2 * spin * nbrs.sum) = some p ∧
        0 ≤ p ∧ p ≤ 1) ∧
    (recalc_lattice [1] 1 (get_trans_map 1) (fun _ => 0)).isSome) :=
  ⟨by decide, by decide, by decide,
   recalc_lattice_safety 1 1 (fun _ => 0) [1] (by decide) (by decide) (by decide)⟩

/-! ## The two-phase iteration protocol -/

/-- Splitting a block of sweeps. -/
lemma run_sweeps_add (size : ℕ) (tm : List (ℤ × ℝ)) (us : ℕ → ℕ → ℝ) :
    ∀ (a b t : ℕ) (lat : SpinLattice),
      run_sweeps size tm us t (a + b) lat =
        (run_sweeps size tm us t a lat).bind (run_sweeps size tm us (t + a) b) := by
  intro a
  induction a with
  | zero =>
    intro b t lat
    simp [run_sweeps]
  | succ a ih =>
    intro b t lat
    have e : a + 1 + b = (a + b) + 1 := by omega
    rw [e, run_sweeps, run_sweeps]
    cases hm : recalc_lattice lat size tm (us t) with
    | none => simp
    | some mid =>
      simp only [Option.some_bind]
      rw [ih b (t + 1) mid]
      have e2 : t + 1 + a = t + (a + 1) := by omega
      rw [e2]

/-- One extra sweep at the end of a block. -/
lemma run_sweeps_succ (size : ℕ) (tm : List (ℤ × ℝ)) (us : ℕ → ℕ → ℝ)
    (t k : ℕ) (lat : SpinLattice) :
    run_sweeps size tm us t (k + 1) lat =
      (run_sweeps size tm us t k lat).bind
        (fun l => recalc_lattice l size tm (us (t + k))) := by
  rw [run_sweeps_add size tm us k 1 t lat]
  congr 1
  funext l
  rw [run_sweeps]
  cases hm : recalc_lattice l size tm (us (t + k)) with
  | none => simp
  | some mid => simp [run_sweeps]

/-- Closed form of the sampling fold: after `n` sampling sweeps the
accumulator holds the lattice after those `n` sweeps together with the
sums of the `⌈n / MAGN_CALC_STEP⌉` magnetization samples taken so far,
sample `j` being read on the lattice reached right after sampling sweep
`MAGN_CALC_STEP · j`. -/
lemma sampling_fold_closed {size : ℕ} {T : ℝ} (rs : RandomSource)
    {lat1 : SpinLattice} (hinv : LatInv size lat1) (hsize : 0 < size) :
    ∀ n : ℕ, ∃ lat2 : SpinLattice, LatInv size lat2 ∧
      run_sweeps size (get_trans_map T) rs.unifs INITIAL_STEPS n lat1 = some lat2 ∧
      (List.range n).foldl (sampling_body size (get_trans_map T) rs)
          (some (lat1, 0, 0)) =
        some (lat2,
          ∑ j ∈ Finset.range ((n + (MAGN_CALC_STEP - 1)) / MAGN_CALC_STEP),
            get_magnetization ((run_sweeps size (get_trans_map T) rs.unifs
              INITIAL_STEPS (MAGN_CALC_STEP * j + 1) lat1).getD []),
          ∑ j ∈ Finset.range ((n + (MAGN_CALC_STEP - 1)) / MAGN_CALC_STEP),
            get_magnetization ((run_sweeps size (get_trans_map T) rs.unifs
              INITIAL_STEPS (MAGN_CALC_STEP * j + 1) lat1).getD []) *
            get_magnetization ((run_sweeps size (get_trans_map T) rs.unifs
              INITIAL_STEPS (MAGN_CALC_STEP * j + 1) lat1).getD [])) := by
  intro n
  induction n with
  | zero =>
    refine ⟨lat1, hinv, rfl, ?_⟩
    norm_num [MAGN_CALC_STEP]
  | succ n ih =>
    obtain ⟨lat2, hinv2, htrace, hfold⟩ := ih
    obtain ⟨lat3, hstep, hinv3⟩ :=
      recalc_lattice_some (T := T) (rs.unifs (INITIAL_STEPS + n)) hinv2 hsize
    have htrace3 : run_sweeps size (get_trans_map T) rs.unifs INITIAL_STEPS
        (n + 1) lat1 = some lat3 := by
      rw [run_sweeps_succ, htrace, Option.some_bind, hstep]
    have hfold3 : (List.range (n + 1)).foldl
        (sampling_body size (get_trans_map T) rs) (some (lat1, 0, 0)) =
        sampling_body size (get_trans_map T) rs
          ((List.range n).foldl (sampling_body size (get_trans_map T) rs)
            (some (lat1, 0, 0))) n := by
      rw [List.range_succ, List.foldl_append, List.foldl_cons, List.foldl_nil]
    refine ⟨lat3, hinv3, htrace3, ?_⟩
    rw [hfold3, hfold, sampling_body]
    simp only [Option.some_bind, hstep, Option.map_some']
    by_cases hmod : n % MAGN_CALC_STEP = 0
    · rw [if_pos hmod]
      have hcnt : (n + 1 + (MAGN_CALC_STEP - 1)) / MAGN_CALC_STEP
          = (n + (MAGN_CALC_STEP - 1)) / MAGN_CALC_STEP + 1 := by
        simp only [MAGN_CALC_STEP] at hmod ⊢
        omega
      have hidx : (n + (MAGN_CALC_STEP - 1)) / MAGN_CALC_STEP
          = n / MAGN_CALC_STEP := by
        simp only [MAGN_CALC_STEP] at hmod ⊢
        omega
      have hsample : MAGN_CALC_STEP * (n / MAGN_CALC_STEP) + 1 = n + 1 := by
        simp only [MAGN_CALC_STEP] at hmod ⊢
        omega
      rw [hcnt, Finset.sum_range_succ, Finset.sum_range_succ, hidx, hsample,
        htrace3]
      simp
    · rw [if_neg hmod]
      have hcnt : (n + 1 + (MAGN_CALC_STEP - 1)) / MAGN_CALC_STEP
          = (n + (MAGN_CALC_STEP - 1)) / MAGN_CALC_STEP := by
        simp only [MAGN_CALC_STEP] at hmod ⊢
        omega
      rw [hcnt]

/-- Magnetizations of `±1` lattices lie in `[0, 1]`. -/
lemma get_magnetization_bounds {l : SpinLattice}
    (hpm : ∀ x ∈ l, x = 1 ∨ x = -1) :
    0 ≤ get_magnetization l ∧ get_magnetization l ≤ 1 := by
  refine ⟨abs_nonneg _, ?_⟩
  rcases eq_or_ne l [] with rfl | hne
  · simp [get_magnetization]
  · have hlen : 0 < (l.length : ℝ) := by
      have : 0 < l.length := List.length_pos.2 hne
      exact_mod_cast this
    rw [get_magnetization, abs_div, Nat.abs_cast, div_le_one hlen]
    have := abs_sum_le_length hpm
    calc |(l.sum : ℝ)| = |((l.sum : ℤ) : ℝ)| := by norm_num
      _ ≤ (l.length : ℝ) := by exact_mod_cast this

/-- Closed form of one whole simulation run: the lattice trace never
panics, and `iteration` returns exactly the mean of the `MAGN_STEPS`
magnetization samples together with the fluctuation-dissipation
susceptibility computed from those samples. -/
lemma iteration_closed_form (size : ℕ) (T : ℝ) (rs : RandomSource)
    (hsize : 0 < size) :
    (∀ k, (lattice_trace size (get_trans_map T) rs k).isSome) ∧
    iteration size T (get_trans_map T) rs =
      some ((∑ j ∈ Finset.range MAGN_STEPS, sample_value size T rs j) / (MAGN_STEPS : ℝ),
        ((size * size : ℕ) : ℝ) / T *
          ((∑ j ∈ Finset.range MAGN_STEPS,
              sample_value size T rs j * sample_value size T rs j) / (MAGN_STEPS : ℝ) -
            (∑ j ∈ Finset.range MAGN_STEPS, sample_value size T rs j) / (MAGN_STEPS : ℝ) *
              ((∑ j ∈ Finset.range MAGN_STEPS, sample_value size T rs j) / (MAGN_STEPS : ℝ)))) := by
  have hgen := generate_lattice_inv size rs.coins
  obtain ⟨lat1, h1, hinv1⟩ :=
    run_sweeps_some (T := T) rs.unifs hsize INITIAL_STEPS 0 hgen
  have htraceSome : ∀ k, (lattice_trace size (get_trans_map T) rs k).isSome := by
    intro k
    obtain ⟨l2, h2, _⟩ := run_sweeps_some (T := T) rs.unifs hsize k 0 hgen
    rw [lattice_trace, h2]
    rfl
  obtain ⟨lat2, hinv2, htr, hfold⟩ := sampling_fold_closed (T := T) rs hinv1 hsize LATER_STEPS
  have hsv : ∀ j, sample_value size T rs j =
      get_magnetization ((run_sweeps size (get_trans_map T) rs.unifs INITIAL_STEPS
        (MAGN_CALC_STEP * j + 1) lat1).getD []) := by
    intro j
    rw [sample_value, lattice_trace,
      run_sweeps_add size (get_trans_map T) rs.unifs INITIAL_STEPS
        (MAGN_CALC_STEP * j + 1) 0, h1, Option.some_bind, Nat.zero_add]
  have hcnt : (LATER_STEPS + (MAGN_CALC_STEP - 1)) / MAGN_CALC_STEP = MAGN_STEPS := by
    norm_num [LATER_STEPS, MAGN_CALC_STEP, MAGN_STEPS]
  refine ⟨htraceSome, ?_⟩
  have hiter_eq : iteration size T (get_trans_map T) rs =
      (run_sweeps size (get_trans_map T) rs.unifs 0 INITIAL_STEPS
          (generate_lattice size rs.coins)).bind (fun lattice =>
        ((List.range LATER_STEPS).foldl (sampling_body size (get_trans_map T) rs)
            (some (lattice, 0, 0))).bind (fun acc =>
          some (acc.2.1 / (MAGN_STEPS : ℝ),
            ((size * size : ℕ) : ℝ) / T *
              (acc.2.2 / (MAGN_STEPS : ℝ) - acc.2.1 / (MAGN_STEPS : ℝ) *
                (acc.2.1 / (MAGN_STEPS : ℝ)))))) := rfl
  rw [hiter_eq, h1, Option.some_bind, hfold, Option.some_bind, hcnt]
  simp only [hsv]

/-- Claim C1: a simulation run first applies exactly `INITIAL_STEPS`
(30,000) equilibration sweeps with no sampling, then `LATER_STEPS`
(200,000) further sweeps sampling the instantaneous magnetization at
every `MAGN_CALC_STEP`-th (100th) sampling sweep — `MAGN_STEPS = 2000`
samples in all, sample `j` being taken right after total sweep
`INITIAL_STEPS + MAGN_CALC_STEP·j + 1` — and returns
`magnetization = (Σ samples)/n_samples` and
`susceptibility = (size²/T) · ((Σ samples²)/n_samples − magnetization²)`. -/
theorem iteration_spec (size : ℕ) (T : ℝ) (rs : RandomSource)
    (hsize : 0 < size) (_hT : 0 < T) :
    (∀ k, (lattice_trace size (get_trans_map T) rs k).isSome) ∧
    INITIAL_STEPS = 30000 ∧ LATER_STEPS = 200000 ∧ MAGN_CALC_STEP = 100 ∧
    MAGN_STEPS = LATER_STEPS / MAGN_CALC_STEP ∧ MAGN_STEPS = 2000 ∧
    iteration size T (get_trans_map T) rs =
      some ((∑ j ∈ Finset.range MAGN_STEPS, sample_value size T rs j) / (MAGN_STEPS : ℝ),
        ((size * size : ℕ) : ℝ) / T *
          ((∑ j ∈ Finset.range MAGN_STEPS,
              sample_value size T rs j * sample_value size T rs j) / (MAGN_STEPS : ℝ) -
            (∑ j ∈ Finset.range MAGN_STEPS, sample_value size T rs j) / (MAGN_STEPS : ℝ) *
              ((∑ j ∈ Finset.range MAGN_STEPS, sample_value size T rs j) / (MAGN_STEPS : ℝ)))) := by
  obtain ⟨ha, hb⟩ := iteration_closed_form size T rs hsize
  exact ⟨ha, rfl, rfl, rfl, rfl, by norm_num [MAGN_STEPS, LATER_STEPS, MAGN_CALC_STEP], hb⟩

/-- Witness for `iteration_spec` at size 6, temperature 1. -/
theorem iteration_spec_witness :
    0 < 6 ∧ (0 : ℝ) < 1 ∧
    ((∀ k, (lattice_trace 6 (get_trans_map 1) ⟨fun _ => true, fun _ _ => 0⟩ k).isSome) ∧
    INITIAL_STEPS = 30000 ∧ LATER_STEPS = 200000 ∧ MAGN_CALC_STEP = 100 ∧
    MAGN_STEPS = LATER_STEPS / MAGN_CALC_STEP ∧ MAGN_STEPS = 2000 ∧
    iteration 6 1 (get_trans_map 1) ⟨fun _ => true, fun _ _ => 0⟩ =
      some ((∑ j ∈ Finset.range MAGN_STEPS,
          sample_value 6 1 ⟨fun _ => true, fun _ _ => 0⟩ j) / (MAGN_STEPS : ℝ),
        ((6 * 6 : ℕ) : ℝ) / 1 *
          ((∑ j ∈ Finset.range MAGN_STEPS,
              sample_value 6 1 ⟨fun _ => true, fun _ _ => 0⟩ j *
              sample_value 6 1 ⟨fun _ => true, fun _ _ => 0⟩ j) / (MAGN_STEPS : ℝ) -
            (∑ j ∈ Finset.range MAGN_STEPS,
              sample_value 6 1 ⟨fun _ => true, fun _ _ => 0⟩ j) / (MAGN_STEPS : ℝ) *
              ((∑ j ∈ Finset.range MAGN_STEPS,
                sample_value 6 1 ⟨fun _ => true, fun _ _ => 0⟩ j) / (MAGN_STEPS : ℝ))))) :=
  ⟨by decide, one_pos,
   iteration_spec 6 1 ⟨fun _ => true, fun _ _ => 0⟩ (by decide) one_pos⟩

/-- Claim C10: for any positive size and temperature the run returns a
magnetization in `[0, 1]` and a non-negative susceptibility; the sampling
fold takes exactly `LATER_STEPS / MAGN_CALC_STEP = 2000 = MAGN_STEPS`
samples, each in `[0, 1]`, so the reported magnetization is their true
mean and the susceptibility is `(size²/T)` times a non-negative
variance. -/
theorem iteration_output_bounds (size : ℕ) (T : ℝ) (rs : RandomSource)
    (hsize : 0 < size) (hT : 0 < T) :
    MAGN_STEPS = LATER_STEPS / MAGN_CALC_STEP ∧ MAGN_STEPS = 2000 ∧
    ∃ m χ, iteration size T (get_trans_map T) rs = some (m, χ) ∧
      0 ≤ m ∧ m ≤ 1 ∧ 0 ≤ χ := by
  obtain ⟨htrace, hiter⟩ := iteration_closed_form size T rs hsize
  have hbounds : ∀ j, 0 ≤ sample_value size T rs j ∧ sample_value size T rs j ≤ 1 := by
    intro j
    rw [sample_value]
    obtain ⟨l2, h2, hinv2⟩ := run_sweeps_some (T := T) rs.unifs hsize
      (INITIAL_STEPS + (MAGN_CALC_STEP * j + 1)) 0 (generate_lattice_inv size rs.coins)
    rw [lattice_trace, h2, Option.getD_some]
    exact get_magnetization_bounds hinv2.2
  have hMn : (0 : ℝ) < (MAGN_STEPS : ℝ) := by
    norm_num [MAGN_STEPS, LATER_STEPS, MAGN_CALC_STEP]
  have hS1_nonneg : 0 ≤ ∑ j ∈ Finset.range MAGN_STEPS, sample_value size T rs j :=
    Finset.sum_nonneg fun j _ => (hbounds j).1
  have hS1_le : (∑ j ∈ Finset.range MAGN_STEPS, sample_value size T rs j) ≤ (MAGN_STEPS : ℝ) := by
    calc (∑ j ∈ Finset.range MAGN_STEPS, sample_value size T rs j)
        ≤ ∑ _j ∈ Finset.range MAGN_STEPS, (1 : ℝ) :=
          Finset.sum_le_sum fun j _ => (hbounds j).2
      _ = (MAGN_STEPS : ℝ) := by simp
  have hCS : (∑ j ∈ Finset.range MAGN_STEPS, sample_value size T rs j) ^ 2 ≤
      (∑ j ∈ Finset.range MAGN_STEPS,
        sample_value size T rs j * sample_value size T rs j) * (MAGN_STEPS : ℝ) := by
    have := Finset.sum_mul_sq_le_sq_mul_sq (Finset.range MAGN_STEPS)
      (fun j => sample_value size T rs j) (fun _ => (1 : ℝ))
    simpa [pow_two] using this
  refine ⟨rfl, by norm_num [MAGN_STEPS, LATER_STEPS, MAGN_CALC_STEP], _, _, hiter, ?_, ?_, ?_⟩
  · exact div_nonneg hS1_nonneg hMn.le
  · rw [div_le_one hMn]
    exact hS1_le
  · have hvar : 0 ≤ (∑ j ∈ Finset.range MAGN_STEPS,
        sample_value size T rs j * sample_value size T rs j) / (MAGN_STEPS : ℝ) -
        (∑ j ∈ Finset.range MAGN_STEPS, sample_value size T rs j) / (MAGN_STEPS : ℝ) *
          ((∑ j ∈ Finset.range MAGN_STEPS, sample_value size T rs j) / (MAGN_STEPS : ℝ)) := by
      rw [sub_nonneg, div_mul_div_comm]
      rw [div_le_div_iff₀ (by positivity) hMn]
      calc (∑ j ∈ Finset.range MAGN_STEPS, sample_value size T rs j) *
            (∑ j ∈ Finset.range MAGN_STEPS, sample_value size T rs j) * (MAGN_STEPS : ℝ)
          = ((∑ j ∈ Finset.range MAGN_STEPS, sample_value size T rs j) ^ 2) * (MAGN_STEPS : ℝ) := by
            ring
        _ ≤ ((∑ j ∈ Finset.range MAGN_STEPS,
              sample_value size T rs j * sample_value size T rs j) * (MAGN_STEPS : ℝ)) *
              (MAGN_STEPS : ℝ) := by
            exact mul_le_mul_of_nonneg_right hCS hMn.le
        _ = (∑ j ∈ Finset.range MAGN_STEPS,
              sample_value size T rs j * sample_value size T rs j) *
              ((MAGN_STEPS : ℝ) * (MAGN_STEPS : ℝ)) := by
            ring
    exact mul_nonneg (div_nonneg (by positivity) hT.le) hvar

/-- Witness for `iteration_output_bounds` at size 6, temperature 1. -/
theorem iteration_output_bounds_witness :
    0 < 6 ∧ (0 : ℝ) < 1 ∧
    (MAGN_STEPS = LATER_STEPS / MAGN_CALC_STEP ∧ MAGN_STEPS = 2000 ∧
    ∃ m χ, iteration 6 1 (get_trans_map 1) ⟨fun _ => false, fun _ _ => 1⟩ = some (m, χ) ∧
      0 ≤ m ∧ m ≤ 1 ∧ 0 ≤ χ) :=
  ⟨by decide, one_pos,
   iteration_output_bounds 6 1 ⟨fun _ => false, fun _ _ => 1⟩ (by decide) one_pos⟩

/-! ## The parameter sweep -/

/-- Projecting each parameter point to its (size, temperature) pair gives
exactly the Cartesian product of the size list and the temperature grid. -/
lemma get_params_proj :
    get_params.map (fun p => (p.1, p.2.1)) =
      LATTICE_SIZES ×ˢ get_float_range MIN_TEMP MAX_TEMP TEMP_STEP := by
  rw [get_params]
  simp only [List.map_flatMap, List.map_map]
  rfl

/-- The (size, temperature) projection of the collected results is the
same Cartesian product. -/
lemma main_results_proj (rss : ℕ → RandomSource) :
    (main_results rss).map (fun r => (r.1, r.2.1)) =
      LATTICE_SIZES ×ˢ get_float_range MIN_TEMP MAX_TEMP TEMP_STEP := by
  rw [main_results, List.map_map]
  have hcomp : ((fun r : ℕ × ℚ × Option (ℝ × ℝ) => (r.1, r.2.1)) ∘
      (fun q : ℕ × (ℕ × ℚ × List (ℤ × ℝ)) =>
        (q.2.1, q.2.2.1, iteration q.2.1 (q.2.2.1 : ℝ) q.2.2.2 (rss q.1)))) =
      (fun p : ℕ × ℚ × List (ℤ × ℝ) => (p.1, p.2.1)) ∘ Prod.snd := rfl
  rw [hcomp, ← List.map_map, List.enum_map_snd, get_params_proj]

/-- The temperature grid has no repeated value. -/
lemma temperatures_nodup : (get_float_range MIN_TEMP MAX_TEMP TEMP_STEP).Nodup := by
  rw [get_float_range_consts]
  refine List.Nodup.map ?_ (List.nodup_range 80)
  intro a b hab
  simp only [TEMP_STEP] at hab
  have : (a : ℚ) = (b : ℚ) := by linarith
  exact_mod_cast this

/-- A list without duplicates counts each of its members exactly once. -/
lemma count_eq_one_of_nodup_mem {l : List (ℕ × ℚ)} {a : ℕ × ℚ}
    (hd : l.Nodup) (ha : a ∈ l) : l.count a = 1 := by
  induction l with
  | nil => cases ha
  | cons b l ih =>
    rw [List.nodup_cons] at hd
    rcases List.mem_cons.1 ha with rfl | hmem
    · rw [List.count_cons_self, List.count_eq_zero.2 hd.1]
    · rw [List.count_cons_of_ne (by rintro rfl; exact hd.1 hmem)]
      exact ih hd.2 hmem

/-- Claim C8: the parameter sweep produces exactly
`|sizes| × |temperatures|` result records (4 × 80 = 320), and every
(size, temperature) combination of the declared grids appears exactly
once among the records, independently of output ordering. -/
theorem main_results_complete (rss : ℕ → RandomSource) :
    (main_results rss).length =
      LATTICE_SIZES.length * (get_float_range MIN_TEMP MAX_TEMP TEMP_STEP).length ∧
    (main_results rss).length = 4 * 80 ∧
    ∀ (l : ℕ) (t : ℚ),
      ((main_results rss).map (fun r => (r.1, r.2.1))).count (l, t) =
        if l ∈ LATTICE_SIZES ∧ t ∈ get_float_range MIN_TEMP MAX_TEMP TEMP_STEP
        then 1 else 0 := by
  have hproj := main_results_proj rss
  have hlen : (main_results rss).length =
      LATTICE_SIZES.length * (get_float_range MIN_TEMP MAX_TEMP TEMP_STEP).length := by
    have h1 : (main_results rss).length =
        ((main_results rss).map (fun r => (r.1, r.2.1))).length :=
      (List.length_map _ _).symm
    rw [h1, hproj, List.length_product]
  have hnodup : (LATTICE_SIZES ×ˢ get_float_range MIN_TEMP MAX_TEMP TEMP_STEP).Nodup :=
    List.Nodup.product (by decide) temperatures_nodup
  refine ⟨hlen, ?_, ?_⟩
  · rw [hlen, get_float_range_consts]
    simp [LATTICE_SIZES]
  · intro l t
    rw [hproj]
    by_cases hmem : l ∈ LATTICE_SIZES ∧ t ∈ get_float_range MIN_TEMP MAX_TEMP TEMP_STEP
    · rw [if_pos hmem]
      exact count_eq_one_of_nodup_mem hnodup (List.mem_product.2 hmem)
    · rw [if_neg hmem]
      exact List.count_eq_zero.2 fun hc => hmem (List.mem_product.1 hc)
